import Mathlib

/-!
# Etsy Keyword Finder (`script.js`): generation, scoring, sort/filter and CSV export

A shallow embedding of the keyword generator of `script.js` and of the two
pure computations of its UI layer (`applySortAndFilter`, the CSV export
handler), followed by the properties proved about them.

Modelling conventions.

* A JavaScript string is a `List Char` (`Str`).  Every whitespace character of
  ECMAScript lies in the Basic Multilingual Plane, so reading a string as code
  points or as UTF-16 code units makes no difference to the functions below.
* `String.prototype.toLowerCase` is a platform builtin whose Unicode case tables
  are not part of the repository; it is a parameter `lower : Str → Str` of every
  definition that calls it.
* `Math.random()` is an explicit input: the record `Oracle` holds the values
  returned by the calls, and the outcome of `sort(() => Math.random() - 0.5)`.
  A draw is a rational number and the arithmetic on it is exact.
* JavaScript numbers that hold integers are `Int`/`Nat`.
-/

namespace EtsyKeywordFinder

/-- A JavaScript string. -/
abbrev Str := List Char

/-- The characters matched by the regular expression `\s` and stripped by
`String.prototype.trim`: ECMAScript `WhiteSpace` and `LineTerminator`. -/
def isWs (c : Char) : Bool :=
  [9, 10, 11, 12, 13, 32, 160, 5760, 8232, 8233, 8239, 8287, 12288, 65279].contains c.toNat
    || (8192 ≤ c.toNat && c.toNat ≤ 8202)

/-- The method `String.prototype.trim`. -/
def trim (s : Str) : Str := (s.dropWhile isWs).rdropWhile isWs

/-- Line 11: `function slugify(s){ return (s||'').toString().trim().toLowerCase(); }`,
for a string argument. -/
def slugify (lower : Str → Str) (s : Str) : Str := lower (trim s)

/-- Line 12: `function unique(arr){ return Array.from(new Set(arr)); }`.  A `Set`
keeps the first insertion of every value, in insertion order. -/
def unique : List Str → List Str
  | [] => []
  | x :: xs => x :: (unique xs).filter (fun y => y ≠ x)

/-- Line 13: `function sample(arr){ return arr[Math.floor(Math.random()*arr.length)]; }`
with the value `r` of `Math.random()`.  An index outside the array reads
`undefined`, here `none`. -/
def sample (arr : List Str) (r : ℚ) : Option Str :=
  let i : Int := ⌊r * (arr.length : ℚ)⌋
  if 0 ≤ i then arr.get? i.toNat else none

/-- The text a template literal `${v}` puts in for a value: the string itself, or
`undefined`. -/
def interp (v : Option Str) : Str := v.getD "undefined".toList

/-- Lines 16-19. -/
def modifiers : List Str :=
  ["handmade", "organic", "personalized", "custom", "vintage", "minimal", "boho", "cute",
   "luxury", "eco", "modern", "rustic", "gift", "set", "bundle", "large", "small", "scented",
   "unscented", "iced", "engraved", "silver", "gold"].map String.toList

/-- Line 21. -/
def intents : List Str :=
  ["gift for", "for", "with", "made of", "in", "set of", "pack of", "for women", "for men",
   "for kids"].map String.toList

/-- Line 23. -/
def materials : List Str :=
  ["wood", "soy", "resin", "ceramic", "cotton", "linen", "leather", "sterling silver",
   "gold plated", "glass"].map String.toList

/-- Line 25. -/
def occasion : List Str :=
  ["wedding", "birthday", "anniversary", "christmas", "valentine", "mother's day",
   "baby shower"].map String.toList

/-- Line 27. -/
def extraWords : List Str :=
  ["best", "cheap", "top", "unique", "trending", "popular", "handcrafted",
   "small business"].map String.toList

/-- Line 120: the suffixes of the extension step. -/
def suffixes : List Str := ["best", "sale", "2025", "new", "handmade"].map String.toList

/-- The pieces of `s` between the characters that satisfy `p`: `s.split(c)` for a
one-character separator; at least one piece, possibly empty. -/
def splitP (p : Char → Bool) : Str → List Str
  | [] => [[]]
  | c :: cs =>
    if p c then [] :: splitP p cs
    else match splitP p cs with
      | [] => [[c]]
      | w :: ws => (c :: w) :: ws

/-- Line 129: `k.split(' ')`. -/
def splitSpace (k : Str) : List Str := splitP (fun c => c == ' ') k

/-- Line 35: `seed.split(/[\s,-]+/).filter(Boolean)`.  Splitting at every run of
separators and splitting at every single separator differ only in empty pieces,
which `filter(Boolean)` removes. -/
def baseWordsOf (seed : Str) : List Str :=
  (splitP (fun c => isWs c || c == ',' || c == '-') seed).filter (fun w => w ≠ [])

/-- The method `Array.prototype.join`, on strings. -/
def join (sep : Str) : List Str → Str
  | [] => []
  | [x] => x
  | x :: y :: rest => x ++ sep ++ join sep (y :: rest)

/-- Line 113: `s.replace(/\s+/g,' ')`: every maximal run of whitespace becomes one
space.  A whitespace character followed by another one is dropped, the last of a run
is replaced by the space. -/
def collapseWs : Str → Str
  | [] => []
  | c :: cs =>
    if isWs c then
      match cs with
      | [] => [' ']
      | d :: _ => if isWs d then collapseWs cs else ' ' :: collapseWs cs
    else c :: collapseWs cs

/-- Line 113: `s => s.replace(/\s+/g,' ').trim()`. -/
def clean (s : Str) : Str := trim (collapseWs s)

/-- The method `String.prototype.includes`: `needle` occurs in `hay`. -/
def includes : Str → Str → Bool
  | [], needle => needle.isPrefixOf []
  | c :: cs, needle => needle.isPrefixOf (c :: cs) || includes cs needle

/-- One space, the separator of the template literals. -/
def sp : Str := [' ']

/-- The values of `Math.random()` during one call of `generateKeywords`.
`rnd n` is the draw of the `n`-th call of `sample` (three per iteration of the
loop of line 105, then one per extension of line 120); `shuffle` is what
`sort(() => Math.random() - 0.5)` makes of its array, which the theorems that need it
assume to be a permutation; `noise j` and `vol j` are the two draws of lines 141 and
147 for the `j`-th keyword. -/
structure Oracle where
  rnd : Nat → ℚ
  shuffle : List Str → List Str
  noise : Nat → ℚ
  vol : Nat → ℚ

/-- Lines 39-68: steps 1 to 5 of the pool. -/
def fixedForms (seed : Str) : List Str :=
  [seed]
  ++ (modifiers.take 12).flatMap (fun m => [m ++ sp ++ seed, seed ++ sp ++ m])
  ++ (materials.take 8).flatMap (fun mat => [seed ++ sp ++ mat, mat ++ sp ++ seed])
  ++ intents.flatMap (fun it => [it ++ sp ++ seed, seed ++ sp ++ it])
  ++ occasion.flatMap (fun o => [seed ++ sp ++ "for".toList ++ sp ++ o, o ++ sp ++ seed])
  ++ extraWords.flatMap (fun w => [w ++ sp ++ seed, seed ++ sp ++ w])

/-- Lines 70-82: step 6, only for a seed of more than one base word. -/
def wordPermutations (baseWords : List Str) : List Str :=
  if baseWords.length > 1 then
    baseWords.flatMap (fun a =>
      (modifiers.take 6).flatMap (fun b => [a ++ sp ++ b, b ++ sp ++ a]))
    ++ [join sp baseWords, join sp baseWords.reverse]
  else []

/-- Lines 84-88: step 7, only for a non-empty category. -/
def categoryForms (lower : Str → Str) (seed category : Str) : List Str :=
  if category ≠ [] then
    [seed ++ sp ++ slugify lower category, slugify lower category ++ sp ++ seed]
  else []

/-- Lines 91-101: step 8. -/
def templates (seed : Str) : List Str :=
  ["set of ".toList ++ seed, seed ++ " set".toList, "mini ".toList ++ seed,
   "personalized ".toList ++ seed, seed ++ " gift".toList, "custom ".toList ++ seed,
   seed ++ " for sale".toList, seed ++ " near me".toList, seed ++ " online".toList]

/-- Lines 105-110: step 9, the 200 iterations with three calls of `sample` each. -/
def randomPhrases (o : Oracle) (seed : Str) : List Str :=
  (List.range 200).flatMap (fun i =>
    let w1 := interp (sample modifiers (o.rnd (3 * i)))
    let w2 := interp (sample modifiers (o.rnd (3 * i + 1)))
    [w1 ++ sp ++ seed ++ sp ++ w2,
     w1 ++ sp ++ interp (sample materials (o.rnd (3 * i + 2))) ++ sp ++ seed])

/-- Lines 37-110: the whole pool, in the order of the pushes. -/
def pool (lower : Str → Str) (o : Oracle) (seed category : Str) : List Str :=
  fixedForms seed ++ wordPermutations (baseWordsOf seed) ++ categoryForms lower seed category
    ++ templates seed ++ randomPhrases o seed

/-- Line 113: `unique(pool.map(s => s.replace(/\s+/g,' ').trim())).filter(Boolean)`. -/
def cleaned (lower : Str → Str) (o : Oracle) (seed category : Str) : List Str :=
  (unique ((pool lower o seed category).map clean)).filter (fun s => s ≠ [])

/-- Lines 118-122: the loop `while(expanded.length < count && idx < cleaned.length)`.
`rest` is `cleaned` from index `idx` on, so that `idx < cleaned.length` is
`rest` not being empty. -/
def expandLoop (o : Oracle) (count : Int) : List Str → Nat → List Str → List Str
  | [], _, expanded => expanded
  | s :: rest, idx, expanded =>
    if (expanded.length : Int) < count then
      expandLoop o count rest (idx + 1)
        (expanded ++ [s ++ " - ".toList ++ interp (sample suffixes (o.rnd (600 + idx)))])
    else expanded

/-- Lines 116-122: `expanded` after the loop. -/
def expandedOf (lower : Str → Str) (o : Oracle) (seed category : Str) (count : Int) :
    List Str :=
  expandLoop o count (cleaned lower o seed category) 0 (cleaned lower o seed category)

/-- Line 125: `expanded.sort(()=>Math.random()-0.5).slice(0, Math.max(10, count))`. -/
def finalOf (lower : Str → Str) (o : Oracle) (seed category : Str) (count : Int) :
    List Str :=
  (o.shuffle (expandedOf lower o seed category count)).take (max 10 count).toNat

/-- The values of the field `class`. -/
inductive Cls where
  | high
  | medium
  | low
  deriving DecidableEq, Repr

/-- The record of line 149: `{ keyword: k, opportunity, class: cls, estVol, length: len }`. -/
structure Keyword where
  keyword : Str
  opportunity : Int
  cls : Cls
  estVol : Int
  length : Nat
  deriving DecidableEq

/-- The function `Math.round`: the nearest integer, a tie going up. -/
def jsRound (x : ℚ) : Int := ⌊x + 1 / 2⌋

/-- Line 129: `k.split(' ').length`. -/
def wordCount (k : Str) : Nat := (splitSpace k).length

/-- Lines 132-139: `opportunity` before the noise is added. -/
def baseOpportunity (k : Str) : Int :=
  let len : Int := (wordCount k : Int)
  let o1 : Int := 50 + min 30 ((len - 1) * 8)
  let o2 : Int := if materials.any (fun m => includes k m) then o1 + 8 else o1
  let o3 : Int := if intents.any (fun it => includes k it) then o2 + 6 else o2
  let o4 : Int := if occasion.any (fun oc => includes k oc) then o3 + 6 else o3
  if len ≤ 2 then o4 - 12 else o4

/-- Line 141: `Math.max(8, Math.min(98, Math.round(opportunity + (Math.random()*12-6))))`
with the draw `r`. -/
def opportunityOf (k : Str) (r : ℚ) : Int :=
  max 8 (min 98 (jsRound ((baseOpportunity k : ℚ) + (r * 12 - 6))))

/-- Line 144: `opportunity > 70 ? 'high' : (opportunity > 45 ? 'medium' : 'low')`. -/
def classify (opportunity : Int) : Cls :=
  if opportunity > 70 then Cls.high else if opportunity > 45 then Cls.medium else Cls.low

/-- Line 147: `Math.max(10, Math.round((100 - opportunity) * (Math.random()*5 + 1)))`
with the draw `r`. -/
def estVolOf (opportunity : Int) (r : ℚ) : Int :=
  max 10 (jsRound (((100 - opportunity : Int) : ℚ) * (r * 5 + 1)))

/-- Lines 128-150: the callback of `final.map`, with its two draws. -/
def scoreKeyword (k : Str) (r1 r2 : ℚ) : Keyword :=
  let opportunity := opportunityOf k r1
  { keyword := k
    opportunity := opportunity
    cls := classify opportunity
    estVol := estVolOf opportunity r2
    length := wordCount k }

/-- Line 128: `final.map(k => ...)`, the `j`-th keyword scored with the draws
`noise j` and `vol j`. -/
def scoreAll (o : Oracle) : Nat → List Str → List Keyword
  | _, [] => []
  | j, k :: ks => scoreKeyword k (o.noise j) (o.vol j) :: scoreAll o (j + 1) ks

/-- Lines 31-151: `generateKeywords(seedRaw, category, count)`. -/
def generateKeywords (lower : Str → Str) (o : Oracle) (seedRaw category : Str)
    (count : Int) : List Keyword :=
  let seed := slugify lower seedRaw
  if seed = [] then []
  else scoreAll o 0 (finalOf lower o seed category count)

/-- The method `Array.prototype.sort` with a consistent comparator `cmp`: the stable
sort that puts `a` before `b` when `cmp(a,b) < 0` and keeps their order when
`cmp(a,b) = 0`. -/
def jsSort (cmp : Keyword → Keyword → Int) (items : List Keyword) : List Keyword :=
  items.insertionSort (fun a b => cmp a b ≤ 0)

/-- Lines 262-263: the filter of `applySortAndFilter`, with `filterInput.value`. -/
def filterItems (lower : Str → Str) (items : List Keyword) (filterValue : Str) :
    List Keyword :=
  let f := trim (lower filterValue)
  if f ≠ [] then items.filter (fun i => includes (lower i.keyword) f) else items

/-- Lines 265-269: the four consecutive `if(mode === ...) items.sort(...)`. -/
def sortItems (items : List Keyword) (mode : Str) : List Keyword :=
  let i1 := if mode = "score-desc".toList then
    jsSort (fun a b => b.opportunity - a.opportunity) items else items
  let i2 := if mode = "score-asc".toList then
    jsSort (fun a b => a.opportunity - b.opportunity) i1 else i1
  let i3 := if mode = "length-asc".toList then
    jsSort (fun a b => ((splitSpace a.keyword).length : Int) - (splitSpace b.keyword).length) i2
    else i2
  let i4 := if mode = "length-desc".toList then
    jsSort (fun a b => ((splitSpace b.keyword).length : Int) - (splitSpace a.keyword).length) i3
    else i3
  i4

/-- Lines 258-271: `applySortAndFilter`, as the list handed to `renderList`; the
empty list when `currentSuggestions` is empty and the list element is cleared. -/
def applySortAndFilter (lower : Str → Str) (currentSuggestions : List Keyword)
    (filterValue sortValue : Str) : List Keyword :=
  if currentSuggestions.length = 0 then []
  else sortItems (filterItems lower currentSuggestions filterValue) sortValue

/-- The text of an integer-valued number, as `Array.prototype.join` writes it. -/
def numToStr (n : Int) : Str :=
  match n with
  | Int.ofNat m => Nat.toDigits 10 m
  | Int.negSucc m => '-' :: Nat.toDigits 10 (m + 1)

/-- Line 297: `i.keyword.replace(/"/g,'""')`. -/
def escapeQuotes (s : Str) : Str :=
  s.flatMap (fun c => if c = '"' then ['"', '"'] else [c])

/-- Line 297: the row pushed for one record. -/
def csvRow (i : Keyword) : List Str :=
  [['"'] ++ escapeQuotes i.keyword ++ ['"'], numToStr i.opportunity, numToStr i.estVol,
   numToStr (i.length : Int)]

/-- Lines 295-298: the text `csv` of the export handler; `none` when there is
nothing to export and the handler returns after the alert. -/
def exportCsv (currentSuggestions : List Keyword) : Option Str :=
  if currentSuggestions.length = 0 then none
  else
    let rows : List (List Str) :=
      ["keyword".toList, "opportunity".toList, "estVol".toList, "length".toList]
        :: currentSuggestions.map csvRow
    some (join ['\n'] (rows.map (join [','])))

/-- A string is whitespace-normal: not empty, no whitespace at either end, no two
neighbouring whitespace characters. -/
def WsNormal (s : Str) : Prop :=
  s ≠ [] ∧ (∀ c, s.head? = some c → isWs c = false) ∧
    (∀ c, s.getLast? = some c → isWs c = false) ∧
    List.Chain' (fun a b => ¬(isWs a = true ∧ isWs b = true)) s

/-- Lower-casing of ASCII letters: `toLowerCase` on ASCII text, for the concrete
instances below. -/
def lowerAscii : Str → Str := List.map Char.toLower

/-- The run in which every call of `Math.random()` returns `0` and the shuffle leaves
the array as it is. -/
def zeroOracle : Oracle :=
  { rnd := fun _ => 0, shuffle := fun l => l, noise := fun _ => 0, vol := fun _ => 0 }

/-- The spec's wording of the escaping, `escaping embedded quotes by doubling`:
every double quote of the keyword is written twice, every other character once. -/
def doubleQuotesSpec : Str → Str
  | [] => []
  | c :: cs => if c = '"' then '"' :: '"' :: doubleQuotesSpec cs else c :: doubleQuotesSpec cs

/-- The spec's wording of one CSV line: the keyword in double quotes, then the
opportunity, the estimated volume and the length, separated by commas. -/
def csvLineSpec (i : Keyword) : Str :=
  '"' :: doubleQuotesSpec i.keyword ++ '"' :: ',' :: numToStr i.opportunity
    ++ ',' :: numToStr i.estVol ++ ',' :: numToStr (i.length : Int)

/-- The spec's wording of the CSV text: the header, then one newline and one line for
every record, in list order. -/
def csvTextSpec (items : List Keyword) : Str :=
  "keyword,opportunity,estVol,length".toList
    ++ (items.map (fun i => '\n' :: csvLineSpec i)).flatten

/-! ## Properties -/

theorem splitP_ne_nil (p : Char → Bool) (s : Str) : splitP p s ≠ [] := by
  induction s with
  | nil => simp [splitP]
  | cons c cs ih =>
    unfold splitP
    split
    · simp
    · split <;> simp

theorem one_le_wordCount (k : Str) : 1 ≤ wordCount k := by
  unfold wordCount splitSpace
  exact List.length_pos.mpr (splitP_ne_nil _ k)

theorem le_jsRound {n : Int} {x : ℚ} (h : (n : ℚ) ≤ x) : n ≤ jsRound x := by
  unfold jsRound
  apply Int.le_floor.mpr
  linarith

theorem baseOpportunity_ge (k : Str) : 38 ≤ baseOpportunity k := by
  have h := one_le_wordCount k
  unfold baseOpportunity
  simp only
  split_ifs <;> omega

theorem baseOpportunity_ge_of_three (k : Str) (h : 3 ≤ wordCount k) :
    66 ≤ baseOpportunity k := by
  unfold baseOpportunity
  simp only
  split_ifs <;> omega

theorem scoreAll_keyword (o : Oracle) (ks : List Str) (j : Nat) :
    (scoreAll o j ks).map Keyword.keyword = ks := by
  induction ks generalizing j with
  | nil => simp [scoreAll]
  | cons k ks ih => simp [scoreAll, ih, scoreKeyword]

theorem scoreAll_length (o : Oracle) (ks : List Str) (j : Nat) :
    (scoreAll o j ks).length = ks.length := by
  have h := congrArg List.length (scoreAll_keyword o ks j)
  simpa using h

theorem mem_scoreAll {o : Oracle} {ks : List Str} {j : Nat} {r : Keyword}
    (h : r ∈ scoreAll o j ks) : ∃ k ∈ ks, ∃ r1 r2 : ℚ, r = scoreKeyword k r1 r2 := by
  induction ks generalizing j with
  | nil => simp [scoreAll] at h
  | cons k ks ih =>
    simp only [scoreAll, List.mem_cons] at h
    rcases h with h | h
    · exact ⟨k, by simp, _, _, h⟩
    · obtain ⟨k', hk', r1, r2, e⟩ := ih h
      exact ⟨k', by simp [hk'], r1, r2, e⟩

theorem mem_generateKeywords {lower : Str → Str} {o : Oracle} {seedRaw category : Str}
    {count : Int} {r : Keyword} (h : r ∈ generateKeywords lower o seedRaw category count) :
    ∃ k ∈ finalOf lower o (slugify lower seedRaw) category count,
      ∃ r1 r2 : ℚ, r = scoreKeyword k r1 r2 := by
  unfold generateKeywords at h
  simp only at h
  split_ifs at h with hs
  · simp at h
  · exact mem_scoreAll h

/-- Claim C4: whatever the keyword and whatever the two draws (in particular for draws
in `[0,1)`), the opportunity computed by line 141 is an integer between 8 and 98 and
the estimated volume computed by line 147 is an integer of at least 10; the same holds
for the fields of every record that `generateKeywords` returns. -/
theorem opportunity_estVol_bounds :
    (∀ (k : Str) (r1 r2 : ℚ),
      8 ≤ (scoreKeyword k r1 r2).opportunity ∧ (scoreKeyword k r1 r2).opportunity ≤ 98 ∧
        10 ≤ (scoreKeyword k r1 r2).estVol) ∧
    (∀ (lower : Str → Str) (o : Oracle) (seedRaw category : Str) (count : Int),
      ∀ r ∈ generateKeywords lower o seedRaw category count,
        8 ≤ r.opportunity ∧ r.opportunity ≤ 98 ∧ 10 ≤ r.estVol) := by
  have key : ∀ (k : Str) (r1 r2 : ℚ),
      8 ≤ (scoreKeyword k r1 r2).opportunity ∧ (scoreKeyword k r1 r2).opportunity ≤ 98 ∧
        10 ≤ (scoreKeyword k r1 r2).estVol := by
    intro k r1 r2
    simp only [scoreKeyword, opportunityOf, estVolOf]
    refine ⟨le_max_left _ _, max_le (by norm_num) (min_le_left _ _), le_max_left _ _⟩
  refine ⟨key, ?_⟩
  intro lower o seedRaw category count r hr
  obtain ⟨k, -, r1, r2, rfl⟩ := mem_generateKeywords hr
  exact key k r1 r2

/-- Claim C5: in every record returned by `generateKeywords` the class is `high`
exactly when the stored opportunity exceeds 70, `medium` exactly when it exceeds 45
and is at most 70, and `low` exactly when it is at most 45. -/
theorem class_matches_opportunity (lower : Str → Str) (o : Oracle) (seedRaw category : Str)
    (count : Int) :
    ∀ r ∈ generateKeywords lower o seedRaw category count,
      (r.cls = Cls.high ↔ r.opportunity > 70) ∧
      (r.cls = Cls.medium ↔ 45 < r.opportunity ∧ r.opportunity ≤ 70) ∧
      (r.cls = Cls.low ↔ r.opportunity ≤ 45) := by
  intro r hr
  obtain ⟨k, -, r1, r2, rfl⟩ := mem_generateKeywords hr
  simp only [scoreKeyword, classify]
  split_ifs with h1 h2
  · simp; omega
  · simp; omega
  · simp; omega

/-- Claim C10: for a noise draw in `[0,1)`, a keyword of three or more space-separated
words gets an opportunity of at least 60 and is therefore never classified `low`;
every keyword gets an opportunity of at least 32, so the lower clamp bound 8 is never
the value returned. -/
theorem opportunity_lower_bounds (k : Str) (r : ℚ) (h0 : 0 ≤ r) (_h1 : r < 1) :
    (3 ≤ (splitSpace k).length →
      60 ≤ opportunityOf k r ∧ classify (opportunityOf k r) ≠ Cls.low) ∧
    32 ≤ opportunityOf k r ∧ opportunityOf k r ≠ 8 := by
  have hb := baseOpportunity_ge k
  have low : 32 ≤ opportunityOf k r := by
    unfold opportunityOf
    refine le_max_of_le_right (le_min (by norm_num) (le_jsRound ?_))
    have : ((38 : Int) : ℚ) ≤ (baseOpportunity k : ℚ) := by exact_mod_cast hb
    push_cast at this ⊢
    linarith
  refine ⟨?_, low, by omega⟩
  intro h3
  have hb3 := baseOpportunity_ge_of_three k h3
  have h60 : 60 ≤ opportunityOf k r := by
    unfold opportunityOf
    refine le_max_of_le_right (le_min (by norm_num) (le_jsRound ?_))
    have : ((66 : Int) : ℚ) ≤ (baseOpportunity k : ℚ) := by exact_mod_cast hb3
    push_cast at this ⊢
    linarith
  refine ⟨h60, ?_⟩
  unfold classify
  split_ifs
  · simp
  · simp
  · omega

/-- The bounds of C10 at the keyword `soy candle gift` and the draw `1/2`. -/
theorem opportunity_lower_bounds_witness :
    (0 : ℚ) ≤ 1 / 2 ∧ (1 / 2 : ℚ) < 1 ∧ 3 ≤ (splitSpace "soy candle gift".toList).length ∧
    (60 ≤ opportunityOf "soy candle gift".toList (1 / 2) ∧
      classify (opportunityOf "soy candle gift".toList (1 / 2)) ≠ Cls.low) ∧
    32 ≤ opportunityOf "soy candle gift".toList (1 / 2) ∧
    opportunityOf "soy candle gift".toList (1 / 2) ≠ 8 :=
  have h := opportunity_lower_bounds "soy candle gift".toList (1 / 2) (by norm_num)
    (by norm_num)
  ⟨by norm_num, by norm_num, by decide, h.1 (by decide), h.2⟩

/-- The statement of C5 at the record that `generateKeywords` returns for the keyword
`soy candle` when every draw is `0`. -/
theorem class_matches_opportunity_witness :
    ({ keyword := "soy candle".toList, opportunity := 48, cls := Cls.medium, estVol := 52,
       length := 2 } : Keyword)
      ∈ generateKeywords lowerAscii zeroOracle "Soy Candle".toList [] 10 ∧
    ((Cls.medium = Cls.high ↔ (48 : Int) > 70) ∧
     (Cls.medium = Cls.medium ↔ 45 < (48 : Int) ∧ (48 : Int) ≤ 70) ∧
     (Cls.medium = Cls.low ↔ (48 : Int) ≤ 45)) :=
  ⟨by decide!,
   class_matches_opportunity lowerAscii zeroOracle "Soy Candle".toList [] 10
     { keyword := "soy candle".toList, opportunity := 48, cls := Cls.medium, estVol := 52,
       length := 2 } (by decide!)⟩

/-! ### `unique` -/

theorem mem_unique {x : Str} {l : List Str} : x ∈ unique l ↔ x ∈ l := by
  induction l with
  | nil => simp [unique]
  | cons a l ih =>
    simp only [unique, List.mem_cons, List.mem_filter, ih]
    constructor
    · rintro (h | ⟨h, -⟩)
      · exact Or.inl h
      · exact Or.inr h
    · intro h
      by_cases hx : x = a
      · exact Or.inl hx
      · rcases h with h | h
        · exact Or.inl h
        · exact Or.inr ⟨h, by simpa using hx⟩

theorem nodup_unique (l : List Str) : (unique l).Nodup := by
  induction l with
  | nil => simp [unique]
  | cons a l ih =>
    simp only [unique, List.nodup_cons, List.mem_filter]
    refine ⟨?_, ih.filter _⟩
    rintro ⟨-, h⟩
    simp at h

theorem length_unique_le (l : List Str) : (unique l).length ≤ l.length := by
  induction l with
  | nil => simp [unique]
  | cons a l ih =>
    simp only [unique, List.length_cons]
    have := List.length_filter_le (fun y => decide (y ≠ a)) (unique l)
    omega

/-! ### Whitespace normalisation -/

/-- No two neighbours are both whitespace. -/
theorem collapseWs_chain (s : Str) :
    List.Chain' (fun a b => ¬(isWs a = true ∧ isWs b = true)) (collapseWs s) := by
  induction s with
  | nil => simp [collapseWs]
  | cons c cs ih =>
    by_cases hc : isWs c = true
    · cases cs with
      | nil => simp [collapseWs, hc]
      | cons d ds =>
        by_cases hd : isWs d = true
        · simpa [collapseWs, hc, hd] using ih
        · have e : collapseWs (c :: d :: ds) = ' ' :: d :: collapseWs ds := by
            simp [collapseWs, hc, hd]
          have e2 : collapseWs (d :: ds) = d :: collapseWs ds := by
            simp [collapseWs, hd]
          rw [e]
          rw [e2] at ih
          exact List.Chain'.cons (by simp [hd]) ih
    · have e : collapseWs (c :: cs) = c :: collapseWs cs := by
        cases cs <;> simp [collapseWs, hc]
      rw [e]
      exact List.chain'_cons'.mpr ⟨fun y _ => by simp [hc], ih⟩

theorem trim_isInfix (s : Str) : trim s <:+: s :=
  (List.rdropWhile_prefix (p := isWs) (l := s.dropWhile isWs)).isInfix.trans
    (List.dropWhile_suffix isWs).isInfix

theorem trim_head_not_ws (s : Str) (c : Char) (h : (trim s).head? = some c) :
    isWs c = false := by
  unfold trim at h
  obtain ⟨t, ht⟩ := List.rdropWhile_prefix (p := isWs) (l := s.dropWhile isWs)
  cases hd : s.dropWhile isWs with
  | nil => simp [hd] at h
  | cons a l =>
    have ha : isWs a = false := by
      have := List.head_dropWhile_not isWs s (by simp [hd])
      simpa [hd] using this
    cases hr : (s.dropWhile isWs).rdropWhile isWs with
    | nil => simp [hr] at h
    | cons b m =>
      rw [hr] at h ht
      rw [hd] at ht
      simp at h ht
      rw [← h, ht.1]
      exact ha

theorem trim_last_not_ws (s : Str) (c : Char) (h : (trim s).getLast? = some c) :
    isWs c = false := by
  unfold trim at h
  have hne : (s.dropWhile isWs).rdropWhile isWs ≠ [] := by
    intro e
    simp [e] at h
  have := List.rdropWhile_last_not (p := isWs) (l := s.dropWhile isWs) hne
  rw [List.getLast?_eq_getLast _ hne] at h
  simp at h
  rw [← h]
  simpa using this

theorem clean_chain (s : Str) :
    List.Chain' (fun a b => ¬(isWs a = true ∧ isWs b = true)) (clean s) :=
  List.Chain'.infix (collapseWs_chain s) (trim_isInfix _)

theorem collapseWs_cons_not_ws {c : Char} (cs : Str) (hc : isWs c = false) :
    collapseWs (c :: cs) = c :: collapseWs cs := by
  cases cs <;> simp [collapseWs, hc]

theorem collapseWs_append_not_ws {m : Str} (t : Str) (hm : ∀ c ∈ m, isWs c = false) :
    collapseWs (m ++ t) = m ++ collapseWs t := by
  induction m with
  | nil => rfl
  | cons c m ih =>
    have hc : isWs c = false := hm c (by simp)
    rw [List.cons_append, collapseWs_cons_not_ws _ hc, ih (fun d hd => hm d (by simp [hd]))]
    rfl

theorem rdropWhile_append_not_ws {m : Str} (u : Str)
    (hm : ∀ c ∈ m, isWs c = false) :
    (m ++ u).rdropWhile isWs = m ++ u.rdropWhile isWs := by
  induction u using List.reverseRecOn with
  | nil =>
    simp only [List.append_nil, List.rdropWhile_nil]
    rw [List.rdropWhile_eq_self_iff]
    intro h
    simp [hm _ (List.getLast_mem h)]
  | append_singleton u x ih =>
    rw [← List.append_assoc, List.rdropWhile_concat, List.rdropWhile_concat, ih]
    split_ifs <;> simp

theorem trim_append_not_ws {m : Str} (u : Str) (hne : m ≠ [])
    (hm : ∀ c ∈ m, isWs c = false) : trim (m ++ u) = m ++ u.rdropWhile isWs := by
  unfold trim
  cases m with
  | nil => exact absurd rfl hne
  | cons a m =>
    have ha : isWs a = false := hm a (by simp)
    have : (a :: m ++ u).dropWhile isWs = a :: m ++ u := by
      simp [List.dropWhile, ha]
    rw [this]
    exact rdropWhile_append_not_ws u hm

theorem clean_append_not_ws {m : Str} (t : Str) (hne : m ≠ [])
    (hm : ∀ c ∈ m, isWs c = false) :
    clean (m ++ t) = m ++ (collapseWs t).rdropWhile isWs := by
  unfold clean
  rw [collapseWs_append_not_ws t hm, trim_append_not_ws _ hne hm]

theorem modifiers_not_ws : ∀ m ∈ modifiers.take 12, m ≠ [] ∧ ∀ c ∈ m, isWs c = false := by
  decide

theorem modifiers_nodup : (modifiers.take 12).Nodup := by
  decide

theorem mem_pool_of_modifier (lower : Str → Str) (o : Oracle) (seed category : Str)
    {m : Str} (hm : m ∈ modifiers.take 12) : m ++ sp ++ seed ∈ pool lower o seed category := by
  unfold pool fixedForms
  simp only [List.mem_append, List.mem_flatMap]
  refine Or.inl (Or.inl (Or.inl (Or.inl (Or.inl (Or.inl (Or.inl (Or.inl
    (Or.inr ⟨m, hm, ?_⟩))))))))
  simp

theorem mem_cleaned {lower : Str → Str} {o : Oracle} {seed category : Str} {x : Str} :
    x ∈ cleaned lower o seed category ↔
      x ≠ [] ∧ ∃ p ∈ pool lower o seed category, clean p = x := by
  unfold cleaned
  simp [List.mem_filter, mem_unique, and_comm]

theorem nodup_cleaned (lower : Str → Str) (o : Oracle) (seed category : Str) :
    (cleaned lower o seed category).Nodup :=
  (nodup_unique _).filter _

/-- The cleaned pool has at least twelve entries: the first twelve modifiers put in
front of the seed stay distinct. -/
theorem twelve_le_length_cleaned (lower : Str → Str) (o : Oracle) (seed category : Str) :
    12 ≤ (cleaned lower o seed category).length := by
  let f : Str → Str := fun m => clean (m ++ sp ++ seed)
  have hf : ∀ m ∈ modifiers.take 12, f m = m ++ (collapseWs (sp ++ seed)).rdropWhile isWs := by
    intro m hm
    have := modifiers_not_ws m hm
    show clean (m ++ sp ++ seed) = _
    rw [List.append_assoc]
    exact clean_append_not_ws _ this.1 this.2
  have hnodup : ((modifiers.take 12).map f).Nodup := by
    refine List.Nodup.map_on ?_ modifiers_nodup
    intro x hx y hy hxy
    rw [hf x hx, hf y hy] at hxy
    exact List.append_cancel_right hxy
  have hsub : (modifiers.take 12).map f ⊆ cleaned lower o seed category := by
    intro x hx
    obtain ⟨m, hm, rfl⟩ := List.mem_map.mp hx
    refine mem_cleaned.mpr ⟨?_, m ++ sp ++ seed, mem_pool_of_modifier lower o seed category hm, rfl⟩
    rw [hf m hm]
    have := (modifiers_not_ws m hm).1
    simp [this]
  have := (List.subperm_of_subset hnodup hsub).length_le
  simpa [modifiers] using this

/-! ### The extension loop -/

theorem expandLoop_isPrefix (o : Oracle) (count : Int) (rest : List Str) (idx : Nat)
    (e : List Str) : e <+: expandLoop o count rest idx e := by
  induction rest generalizing idx e with
  | nil => simp [expandLoop]
  | cons s rest ih =>
    unfold expandLoop
    split_ifs
    · exact (List.prefix_append e _).trans (ih _ _)
    · exact List.prefix_refl e

theorem length_le_expandLoop (o : Oracle) (count : Int) (rest : List Str) (idx : Nat)
    (e : List Str) : e.length ≤ (expandLoop o count rest idx e).length :=
  (expandLoop_isPrefix o count rest idx e).length_le

theorem mem_expandLoop {o : Oracle} {count : Int} {rest : List Str} {idx : Nat}
    {e : List Str} {x : Str} (h : x ∈ expandLoop o count rest idx e) :
    x ∈ e ∨ ∃ s ∈ rest, ∃ r : ℚ, x = s ++ " - ".toList ++ interp (sample suffixes r) := by
  induction rest generalizing idx e with
  | nil => exact Or.inl (by simpa [expandLoop] using h)
  | cons s rest ih =>
    unfold expandLoop at h
    split_ifs at h
    · rcases ih h with h | ⟨s', hs', r, rfl⟩
      · rcases List.mem_append.mp h with h | h
        · exact Or.inl h
        · exact Or.inr ⟨s, by simp, _, by simpa using h⟩
      · exact Or.inr ⟨s', by simp [hs'], r, rfl⟩
    · exact Or.inl h

theorem interp_sample_suffixes (r : ℚ) :
    interp (sample suffixes r) ∈ "undefined".toList :: suffixes := by
  unfold sample interp
  simp only
  split_ifs
  · cases h : suffixes.get? (⌊r * (suffixes.length : ℚ)⌋).toNat with
    | none => simp
    | some x =>
      have := List.get?_mem h
      simp [this]
  · simp

/-! ### Whitespace-normal strings -/

theorem normal_clean {s : Str} (h : clean s ≠ []) : WsNormal (clean s) :=
  ⟨h, trim_head_not_ws _, trim_last_not_ws _, clean_chain s⟩

theorem chain_of_not_ws {x : Str} (hx : ∀ c ∈ x, isWs c = false) :
    List.Chain' (fun a b => ¬(isWs a = true ∧ isWs b = true)) x := by
  induction x with
  | nil => simp
  | cons c x ih =>
    refine List.chain'_cons'.mpr ⟨fun y _ => ?_, ih (fun d hd => hx d (by simp [hd]))⟩
    simp [hx c (by simp)]

theorem suffixes_not_ws :
    ∀ x ∈ "undefined".toList :: suffixes, x ≠ [] ∧ ∀ c ∈ x, isWs c = false := by
  decide

theorem normal_extend {s x : Str} (hs : WsNormal s) (hx : x ∈ "undefined".toList :: suffixes) :
    WsNormal (s ++ " - ".toList ++ x) := by
  obtain ⟨hne, hhead, hlast, hchain⟩ := hs
  obtain ⟨xne, xws⟩ := suffixes_not_ws x hx
  have e : s ++ " - ".toList ++ x = s ++ (' ' :: '-' :: ' ' :: x) := by simp
  rw [e]
  refine ⟨by simp [hne], ?_, ?_, ?_⟩
  · intro c hc
    rw [List.head?_append_of_ne_nil _ hne] at hc
    exact hhead c hc
  · intro c hc
    rw [List.getLast?_append_of_ne_nil _ (by simp)] at hc
    have hmem : c ∈ x := by
      rw [List.getLast?_eq_getLast _ (by simp)] at hc
      simp only [Option.some.injEq] at hc
      rw [← hc, List.getLast_cons (by simp), List.getLast_cons (by simp),
        List.getLast_cons xne]
      exact List.getLast_mem xne
    exact xws c hmem
  · refine List.chain'_append.mpr ⟨hchain, ?_, ?_⟩
    · refine List.Chain'.cons (by decide) (List.Chain'.cons (by decide) ?_)
      refine List.chain'_cons'.mpr ⟨fun y hy => ?_, chain_of_not_ws xws⟩
      have : y ∈ x := List.mem_of_mem_head? hy
      simp [xws y this]
    · intro a ha b _
      have := hlast a (by simpa using ha)
      simp [this]

theorem normal_cleaned {lower : Str → Str} {o : Oracle} {seed category : Str} {x : Str}
    (h : x ∈ cleaned lower o seed category) : WsNormal x := by
  obtain ⟨hne, p, -, rfl⟩ := mem_cleaned.mp h
  exact normal_clean hne

theorem normal_expanded {lower : Str → Str} {o : Oracle} {seed category : Str} {count : Int}
    {x : Str} (h : x ∈ expandedOf lower o seed category count) : WsNormal x := by
  unfold expandedOf at h
  rcases mem_expandLoop h with h | ⟨s, hs, r, rfl⟩
  · exact normal_cleaned h
  · exact normal_extend (normal_cleaned hs) (interp_sample_suffixes r)

theorem mem_finalOf {lower : Str → Str} {o : Oracle} {seed category : Str} {count : Int}
    (hperm : ∀ l, (o.shuffle l).Perm l) {x : Str}
    (h : x ∈ finalOf lower o seed category count) :
    x ∈ expandedOf lower o seed category count :=
  (hperm _).subset (List.mem_of_mem_take h)

/-! ### Length of the result -/

theorem length_generateKeywords_of_ne {lower : Str → Str} {o : Oracle} {seedRaw category : Str}
    {count : Int} (hseed : slugify lower seedRaw ≠ []) (hperm : ∀ l, (o.shuffle l).Perm l) :
    (generateKeywords lower o seedRaw category count).length =
      min (max 10 count).toNat
        (expandedOf lower o (slugify lower seedRaw) category count).length := by
  unfold generateKeywords
  simp only [hseed, if_false]
  rw [scoreAll_length]
  unfold finalOf
  rw [List.length_take, (hperm _).length_eq]

theorem twelve_le_length_expanded (lower : Str → Str) (o : Oracle) (seed category : Str)
    (count : Int) : 12 ≤ (expandedOf lower o seed category count).length :=
  (twelve_le_length_cleaned lower o seed category).trans (length_le_expandLoop _ _ _ _ _)

theorem ten_le_length_generateKeywords {lower : Str → Str} {o : Oracle}
    {seedRaw category : Str} {count : Int} (hseed : slugify lower seedRaw ≠ [])
    (hperm : ∀ l, (o.shuffle l).Perm l) :
    10 ≤ (generateKeywords lower o seedRaw category count).length := by
  rw [length_generateKeywords_of_ne hseed hperm]
  have h12 := twelve_le_length_expanded lower o (slugify lower seedRaw) category count
  have h10 : (10 : Int) ≤ max 10 count := le_max_left _ _
  refine le_min ?_ (by omega)
  omega

/-- Claim C1: for a seed that is not empty after trimming and lower-casing, every
category, every integer count and every outcome of the random choices in which the
shuffle is a permutation, the list returned by `generateKeywords` has a length `n`
with `10 ≤ n ≤ max(10, count)`. -/
theorem generateKeywords_length_bounds (lower : Str → Str) (o : Oracle)
    (seedRaw category : Str) (count : Int) (hseed : slugify lower seedRaw ≠ [])
    (hperm : ∀ l, (o.shuffle l).Perm l) :
    10 ≤ (generateKeywords lower o seedRaw category count).length ∧
      ((generateKeywords lower o seedRaw category count).length : Int) ≤ max 10 count := by
  refine ⟨ten_le_length_generateKeywords hseed hperm, ?_⟩
  rw [length_generateKeywords_of_ne hseed hperm]
  have h10 : (10 : Int) ≤ max 10 count := le_max_left _ _
  · have : min (max 10 count).toNat
        (expandedOf lower o (slugify lower seedRaw) category count).length
        ≤ (max 10 count).toNat := min_le_left _ _
    omega

/-- The bounds of C1 for the seed ` Soy Candle `, no category and count 50. -/
theorem generateKeywords_length_bounds_witness :
    slugify lowerAscii " Soy Candle ".toList ≠ [] ∧
    (∀ l, (zeroOracle.shuffle l).Perm l) ∧
    10 ≤ (generateKeywords lowerAscii zeroOracle " Soy Candle ".toList [] 50).length ∧
      ((generateKeywords lowerAscii zeroOracle " Soy Candle ".toList [] 50).length : Int)
        ≤ max 10 50 :=
  ⟨by decide, fun l => List.Perm.refl l,
    generateKeywords_length_bounds lowerAscii zeroOracle " Soy Candle ".toList [] 50
      (by decide) (fun l => List.Perm.refl l)⟩

theorem trim_eq_nil_of_all_ws {s : Str} (h : ∀ c ∈ s, isWs c = true) : trim s = [] := by
  unfold trim
  have : s.dropWhile isWs = [] := by
    rw [List.dropWhile_eq_nil_iff]
    exact h
  simp [this]

/-- Claim C2: when the seed normalizes to the empty string `generateKeywords` returns
the empty list, for every category and count; this is so for the empty seed and for a
seed of whitespace only (lower-casing the empty string gives the empty string).
Conversely, when the seed is not empty after normalization and the shuffle is a
permutation, the result is not empty. -/
theorem generateKeywords_eq_nil_iff (lower : Str → Str) (o : Oracle)
    (seedRaw category : Str) (count : Int) :
    (slugify lower seedRaw = [] → generateKeywords lower o seedRaw category count = []) ∧
    (lower [] = [] → (∀ c ∈ seedRaw, isWs c = true) →
      generateKeywords lower o seedRaw category count = []) ∧
    ((∀ l, (o.shuffle l).Perm l) → slugify lower seedRaw ≠ [] →
      generateKeywords lower o seedRaw category count ≠ []) := by
  have h1 : slugify lower seedRaw = [] →
      generateKeywords lower o seedRaw category count = [] := by
    intro h
    simp [generateKeywords, h]
  refine ⟨h1, ?_, ?_⟩
  · intro hl hws
    apply h1
    unfold slugify
    rw [trim_eq_nil_of_all_ws hws, hl]
  · intro hperm hseed hnil
    have := @ten_le_length_generateKeywords lower o seedRaw category count hseed hperm
    rw [hnil] at this
    simp at this

/-- The three parts of C2 at the empty seed, at a seed of blanks and a tab, and at the
seed `soy candle`. -/
theorem generateKeywords_eq_nil_iff_witness :
    generateKeywords lowerAscii zeroOracle [] [] 50 = [] ∧
    generateKeywords lowerAscii zeroOracle " \t ".toList [] 50 = [] ∧
    generateKeywords lowerAscii zeroOracle "soy candle".toList [] 50 ≠ [] :=
  ⟨(generateKeywords_eq_nil_iff lowerAscii zeroOracle [] [] 50).1 (by decide),
   (generateKeywords_eq_nil_iff lowerAscii zeroOracle " \t ".toList [] 50).2.1
     (by decide) (by decide),
   (generateKeywords_eq_nil_iff lowerAscii zeroOracle "soy candle".toList [] 50).2.2
     (fun l => List.Perm.refl l) (by decide)⟩

/-- Claim C3: when the shuffle is a permutation, every keyword in the list returned by
`generateKeywords` is a non-empty string that does not start with whitespace, does
not end with whitespace and has no two whitespace characters next to each other; the
same holds for every entry of `expanded`, the pool after the suffix-extension step. -/
theorem generateKeywords_keywords_normalized (lower : Str → Str) (o : Oracle)
    (seedRaw category : Str) (count : Int) (hperm : ∀ l, (o.shuffle l).Perm l) :
    (∀ r ∈ generateKeywords lower o seedRaw category count,
      r.keyword ≠ [] ∧
      (∀ c, r.keyword.head? = some c → isWs c = false) ∧
      (∀ c, r.keyword.getLast? = some c → isWs c = false) ∧
      (∀ a b, [a, b] <:+: r.keyword → ¬(isWs a = true ∧ isWs b = true))) ∧
    (∀ x ∈ expandedOf lower o (slugify lower seedRaw) category count,
      x ≠ [] ∧
      (∀ c, x.head? = some c → isWs c = false) ∧
      (∀ c, x.getLast? = some c → isWs c = false) ∧
      (∀ a b, [a, b] <:+: x → ¬(isWs a = true ∧ isWs b = true))) := by
  have key : ∀ x ∈ expandedOf lower o (slugify lower seedRaw) category count,
      x ≠ [] ∧
      (∀ c, x.head? = some c → isWs c = false) ∧
      (∀ c, x.getLast? = some c → isWs c = false) ∧
      (∀ a b, [a, b] <:+: x → ¬(isWs a = true ∧ isWs b = true)) := by
    intro x hx
    obtain ⟨h1, h2, h3, h4⟩ := normal_expanded hx
    exact ⟨h1, h2, h3, fun a b hab => List.chain'_pair.mp ( List.Chain'.infix h4 hab)⟩
  refine ⟨?_, key⟩
  intro r hr
  obtain ⟨k, hk, r1, r2, rfl⟩ := mem_generateKeywords hr
  exact key k (mem_finalOf hperm hk)

/-- The statement of C3 at a keyword made by the suffix-extension step, for a seed and
a category with stray whitespace and a count that forces the extension. -/
theorem generateKeywords_keywords_normalized_witness :
    (∀ l, (zeroOracle.shuffle l).Perm l) ∧
    ({ keyword := "soy candle - best".toList, opportunity := 76, cls := Cls.high,
       estVol := 24, length := 4 } : Keyword)
      ∈ generateKeywords lowerAscii zeroOracle "  soy \t candle ".toList " ".toList 700 ∧
    "soy candle - best".toList ≠ [] ∧
    (∀ c, "soy candle - best".toList.head? = some c → isWs c = false) ∧
    (∀ c, "soy candle - best".toList.getLast? = some c → isWs c = false) ∧
    (∀ a b, [a, b] <:+: "soy candle - best".toList → ¬(isWs a = true ∧ isWs b = true)) :=
  ⟨fun l => List.Perm.refl l, by decide!,
   (generateKeywords_keywords_normalized lowerAscii zeroOracle "  soy \t candle ".toList
      " ".toList 700 (fun l => List.Perm.refl l)).1
      { keyword := "soy candle - best".toList, opportunity := 76, cls := Cls.high,
        estVol := 24, length := 4 } (by decide!)⟩

/-! ### CSV export -/

theorem escapeQuotes_eq_spec (s : Str) : escapeQuotes s = doubleQuotesSpec s := by
  induction s with
  | nil => rfl
  | cons c cs ih =>
    unfold escapeQuotes at ih ⊢
    rw [List.flatMap_cons, ih]
    by_cases h : c = '"' <;> simp [doubleQuotesSpec, h]

theorem join_csvRow (i : Keyword) : join [','] (csvRow i) = csvLineSpec i := by
  simp [csvRow, join, csvLineSpec, escapeQuotes_eq_spec]

theorem join_lines (first : Str) (lines : List Str) :
    join ['\n'] (first :: lines) = first ++ (lines.map (fun l => '\n' :: l)).flatten := by
  induction lines generalizing first with
  | nil => simp [join]
  | cons l ls ih => simp [join, ih]

theorem digitChar_ne_newline : ∀ d < 10, Nat.digitChar d ≠ '\n' := by
  decide

theorem toDigitsCore_no_newline (fuel n : Nat) (ds : List Char)
    (hds : ∀ c ∈ ds, c ≠ '\n') (hne : 0 < fuel ∨ ds ≠ []) :
    Nat.toDigitsCore 10 fuel n ds ≠ [] ∧ ∀ c ∈ Nat.toDigitsCore 10 fuel n ds, c ≠ '\n' := by
  induction fuel generalizing n ds with
  | zero =>
    rcases hne with h | h
    · omega
    · exact ⟨by simpa [Nat.toDigitsCore] using h, by simpa [Nat.toDigitsCore] using hds⟩
  | succ fuel ih =>
    have hds2 : ∀ c ∈ Nat.digitChar (n % 10) :: ds, c ≠ '\n' := by
      intro c hc
      rcases List.mem_cons.mp hc with rfl | hc
      · exact digitChar_ne_newline _ (Nat.mod_lt _ (by norm_num))
      · exact hds c hc
    unfold Nat.toDigitsCore
    simp only
    split_ifs
    · exact ⟨by simp, hds2⟩
    · exact ih _ _ hds2 (Or.inr (by simp))

theorem numToStr_natCast_no_newline (n : Nat) :
    numToStr (n : Int) ≠ [] ∧ ∀ c ∈ numToStr (n : Int), c ≠ '\n' :=
  toDigitsCore_no_newline (n + 1) n [] (by simp) (Or.inl (by omega))

theorem csvLineSpec_getLast (i : Keyword) : (csvLineSpec i).getLast? ≠ some '\n' := by
  obtain ⟨hne, hall⟩ := numToStr_natCast_no_newline i.length
  unfold csvLineSpec
  intro h
  have e : '"' :: doubleQuotesSpec i.keyword ++ '"' :: ',' :: numToStr i.opportunity
      ++ ',' :: numToStr i.estVol ++ ',' :: numToStr (i.length : Int)
      = ('"' :: doubleQuotesSpec i.keyword ++ '"' :: ',' :: numToStr i.opportunity
      ++ ',' :: numToStr i.estVol ++ [',']) ++ numToStr (i.length : Int) := by simp
  rw [e, List.getLast?_append_of_ne_nil _ hne, List.getLast?_eq_getLast _ hne] at h
  simp only [Option.some.injEq] at h
  exact hall _ (h ▸ List.getLast_mem hne) rfl

theorem csvTextSpec_getLast {items : List Keyword} (h : items ≠ []) :
    (csvTextSpec items).getLast? ≠ some '\n' := by
  obtain ⟨init, last, rfl⟩ : ∃ init last, items = init ++ [last] :=
    ⟨items.dropLast, items.getLast h, (List.dropLast_append_getLast h).symm⟩
  unfold csvTextSpec
  intro hl
  have hne : csvLineSpec last ≠ [] := by simp [csvLineSpec]
  have e : "keyword,opportunity,estVol,length".toList
      ++ ((init ++ [last]).map (fun i => '\n' :: csvLineSpec i)).flatten
      = ("keyword,opportunity,estVol,length".toList
      ++ (init.map (fun i => '\n' :: csvLineSpec i)).flatten ++ ['\n']) ++ csvLineSpec last := by
    simp
  rw [e, List.getLast?_append_of_ne_nil _ hne] at hl
  exact csvLineSpec_getLast last hl

theorem exportCsv_eq_spec {items : List Keyword} (h : items ≠ []) :
    exportCsv items = some (csvTextSpec items) := by
  unfold exportCsv
  have hlen : items.length ≠ 0 := by simpa using h
  simp only [hlen, if_false, List.map_cons, join_lines, List.map_map, Option.some.injEq,
    csvTextSpec]
  have hhead : join [','] ["keyword".toList, "opportunity".toList, "estVol".toList,
      "length".toList] = "keyword,opportunity,estVol,length".toList := by decide
  rw [hhead]
  congr 2
  apply List.map_congr_left
  intro i _
  simp [join_csvRow]

/-- Claim C6: for a non-empty list of records the CSV text of the export handler is
the header line `keyword,opportunity,estVol,length` followed, for every record in
list order, by a newline and the line made of the keyword in double quotes with every
embedded double quote doubled, the opportunity, the estimated volume and the length,
separated by commas; the text does not end with a newline; and for the single record
of the spec's example the text is exactly the two lines given there. -/
theorem exportCsv_text :
    (∀ items : List Keyword, items ≠ [] → exportCsv items = some (csvTextSpec items)) ∧
    (∀ items : List Keyword, items ≠ [] → ∀ csv, exportCsv items = some csv →
      csv.getLast? ≠ some '\n') ∧
    exportCsv [{ keyword := "gift for soy candle".toList, opportunity := 75, cls := Cls.high,
                 estVol := 30, length := 4 }]
      = some "keyword,opportunity,estVol,length\n\"gift for soy candle\",75,30,4".toList := by
  refine ⟨fun items h => exportCsv_eq_spec h, ?_, by decide⟩
  intro items h csv hcsv
  rw [exportCsv_eq_spec h] at hcsv
  simp only [Option.some.injEq] at hcsv
  rw [← hcsv]
  exact csvTextSpec_getLast h

/-- The first part of C6 for two records, one with double quotes in its keyword. -/
theorem exportCsv_text_witness :
    exportCsv [{ keyword := "say \"hi\"".toList, opportunity := 75, cls := Cls.high,
                 estVol := 30, length := 2 },
               { keyword := "soy candle".toList, opportunity := 48, cls := Cls.medium,
                 estVol := 120, length := 2 }]
      = some (csvTextSpec
          [{ keyword := "say \"hi\"".toList, opportunity := 75, cls := Cls.high,
             estVol := 30, length := 2 },
           { keyword := "soy candle".toList, opportunity := 48, cls := Cls.medium,
             estVol := 120, length := 2 }]) :=
  exportCsv_text.1 _ (by simp)

/-! ### Sorting and filtering -/

theorem includes_iff (hay needle : Str) : includes hay needle = true ↔ needle <:+: hay := by
  induction hay with
  | nil =>
    simp only [includes, List.isPrefixOf_iff_prefix, List.prefix_nil, List.infix_nil]
  | cons c cs ih =>
    simp only [includes, Bool.or_eq_true, List.isPrefixOf_iff_prefix, ih,
      List.infix_cons_iff]

theorem jsSort_perm (cmp : Keyword → Keyword → Int) (items : List Keyword) :
    (jsSort cmp items).Perm items :=
  List.perm_insertionSort _ items

/-- Sorting with the comparator `key a - key b` orders the list by `key`. -/
theorem jsSort_sorted_asc (key : Keyword → Int) (items : List Keyword) :
    List.Sorted (fun a b => key a ≤ key b) (jsSort (fun a b => key a - key b) items) := by
  haveI : IsTotal Keyword (fun a b => key a - key b ≤ 0) := ⟨fun a b => by omega⟩
  haveI : IsTrans Keyword (fun a b => key a - key b ≤ 0) := ⟨fun a b c h1 h2 => by omega⟩
  have h := List.sorted_insertionSort (fun a b : Keyword => key a - key b ≤ 0) items
  exact List.Pairwise.imp (fun {a b} hab => by omega) h

/-- Sorting with the comparator `key b - key a` orders the list by `key`, largest first. -/
theorem jsSort_sorted_desc (key : Keyword → Int) (items : List Keyword) :
    List.Sorted (fun a b => key b ≤ key a) (jsSort (fun a b => key b - key a) items) := by
  haveI : IsTotal Keyword (fun a b => key b - key a ≤ 0) := ⟨fun a b => by omega⟩
  haveI : IsTrans Keyword (fun a b => key b - key a ≤ 0) := ⟨fun a b c h1 h2 => by omega⟩
  have h := List.sorted_insertionSort (fun a b : Keyword => key b - key a ≤ 0) items
  exact List.Pairwise.imp (fun {a b} hab => by omega) h

theorem modes_distinct :
    "score-desc".toList ≠ "score-asc".toList ∧ "score-desc".toList ≠ "length-asc".toList ∧
    "score-desc".toList ≠ "length-desc".toList ∧ "score-asc".toList ≠ "length-asc".toList ∧
    "score-asc".toList ≠ "length-desc".toList ∧ "length-asc".toList ≠ "length-desc".toList := by
  decide

theorem sortItems_score_desc (items : List Keyword) :
    sortItems items "score-desc".toList
      = jsSort (fun a b => b.opportunity - a.opportunity) items := by
  obtain ⟨h1, h2, h3, -, -, -⟩ := modes_distinct
  unfold sortItems
  simp only [if_pos, if_neg h1, if_neg h2, if_neg h3]

theorem sortItems_score_asc (items : List Keyword) :
    sortItems items "score-asc".toList
      = jsSort (fun a b => a.opportunity - b.opportunity) items := by
  obtain ⟨h1, -, -, h4, h5, -⟩ := modes_distinct
  unfold sortItems
  simp only [if_pos, if_neg h1.symm, if_neg h4, if_neg h5]

theorem sortItems_length_asc (items : List Keyword) :
    sortItems items "length-asc".toList
      = jsSort (fun a b => ((splitSpace a.keyword).length : Int) - (splitSpace b.keyword).length)
          items := by
  obtain ⟨-, h2, -, h4, -, h6⟩ := modes_distinct
  unfold sortItems
  simp only [if_pos, if_neg h2.symm, if_neg h4.symm, if_neg h6]

theorem sortItems_length_desc (items : List Keyword) :
    sortItems items "length-desc".toList
      = jsSort (fun a b => ((splitSpace b.keyword).length : Int) - (splitSpace a.keyword).length)
          items := by
  obtain ⟨-, -, h3, -, h5, h6⟩ := modes_distinct
  unfold sortItems
  simp only [if_pos, if_neg h3.symm, if_neg h5.symm, if_neg h6.symm]

theorem sortItems_perm (items : List Keyword) (mode : Str) :
    (sortItems items mode).Perm items := by
  unfold sortItems
  simp only
  split_ifs <;>
    first
    | exact List.Perm.refl _
    | exact jsSort_perm _ _
    | exact (jsSort_perm _ _).trans (jsSort_perm _ _)
    | exact (jsSort_perm _ _).trans ((jsSort_perm _ _).trans (jsSort_perm _ _))
    | exact (jsSort_perm _ _).trans
        ((jsSort_perm _ _).trans ((jsSort_perm _ _).trans (jsSort_perm _ _)))

theorem applySortAndFilter_eq (lower : Str → Str) (cur : List Keyword) (f mode : Str) :
    applySortAndFilter lower cur f mode = sortItems (filterItems lower cur f) mode := by
  unfold applySortAndFilter
  split_ifs with h
  · have : cur = [] := List.length_eq_zero.mp h
    subst this
    have hf : filterItems lower [] f = [] := by
      unfold filterItems
      simp
    rw [hf]
    exact ((sortItems_perm [] mode).eq_nil).symm
  · rfl

theorem applySortAndFilter_perm (lower : Str → Str) (cur : List Keyword) (f mode : Str) :
    (applySortAndFilter lower cur f mode).Perm (filterItems lower cur f) := by
  rw [applySortAndFilter_eq]
  exact sortItems_perm _ _

theorem mem_filterItems (lower : Str → Str) (cur : List Keyword) (f : Str) (it : Keyword) :
    it ∈ filterItems lower cur f ↔ it ∈ cur ∧ trim (lower f) <:+: lower it.keyword := by
  unfold filterItems
  simp only
  split_ifs with h
  · simp [List.mem_filter, includes_iff]
  · simp only [ne_eq, not_not] at h
    simp [h]

/-- Claim C7: under each of the four sort modes the list that `applySortAndFilter`
renders is a permutation of the filtered items, ordered by the key of the mode:
opportunity non-increasing for `score-desc`, opportunity non-decreasing for
`score-asc`, number of space-separated words of the keyword non-decreasing for
`length-asc` and non-increasing for `length-desc`.  Three items with the opportunities
40, 90, 60, all kept by the filter, come out in the order 90, 60, 40 under
`score-desc`. -/
theorem applySortAndFilter_sorted (lower : Str → Str) (cur : List Keyword) (f : Str) :
    ((applySortAndFilter lower cur f "score-desc".toList).Perm (filterItems lower cur f) ∧
      List.Sorted (fun a b => b.opportunity ≤ a.opportunity)
        (applySortAndFilter lower cur f "score-desc".toList)) ∧
    ((applySortAndFilter lower cur f "score-asc".toList).Perm (filterItems lower cur f) ∧
      List.Sorted (fun a b => a.opportunity ≤ b.opportunity)
        (applySortAndFilter lower cur f "score-asc".toList)) ∧
    ((applySortAndFilter lower cur f "length-asc".toList).Perm (filterItems lower cur f) ∧
      List.Sorted (fun a b => (splitSpace a.keyword).length ≤ (splitSpace b.keyword).length)
        (applySortAndFilter lower cur f "length-asc".toList)) ∧
    ((applySortAndFilter lower cur f "length-desc".toList).Perm (filterItems lower cur f) ∧
      List.Sorted (fun a b => (splitSpace b.keyword).length ≤ (splitSpace a.keyword).length)
        (applySortAndFilter lower cur f "length-desc".toList)) ∧
    (∀ a b c : Keyword, a.opportunity = 40 → b.opportunity = 90 → c.opportunity = 60 →
      filterItems lower [a, b, c] f = [a, b, c] →
      applySortAndFilter lower [a, b, c] f "score-desc".toList = [b, c, a]) := by
  refine ⟨⟨applySortAndFilter_perm _ _ _ _, ?_⟩, ⟨applySortAndFilter_perm _ _ _ _, ?_⟩,
    ⟨applySortAndFilter_perm _ _ _ _, ?_⟩, ⟨applySortAndFilter_perm _ _ _ _, ?_⟩, ?_⟩
  · rw [applySortAndFilter_eq, sortItems_score_desc]
    exact jsSort_sorted_desc (fun k => k.opportunity) _
  · rw [applySortAndFilter_eq, sortItems_score_asc]
    exact jsSort_sorted_asc (fun k => k.opportunity) _
  · rw [applySortAndFilter_eq, sortItems_length_asc]
    have := jsSort_sorted_asc (fun k => ((splitSpace k.keyword).length : Int))
      (filterItems lower cur f)
    exact List.Pairwise.imp (fun {a b} hab => by exact_mod_cast hab) this
  · rw [applySortAndFilter_eq, sortItems_length_desc]
    have := jsSort_sorted_desc (fun k => ((splitSpace k.keyword).length : Int))
      (filterItems lower cur f)
    exact List.Pairwise.imp (fun {a b} hab => by exact_mod_cast hab) this
  · intro a b c ha hb hc hf
    rw [applySortAndFilter_eq, hf, sortItems_score_desc]
    simp [jsSort, List.insertionSort, List.orderedInsert, ha, hb, hc]

/-- The example of C7 with three concrete records and an empty filter text. -/
theorem applySortAndFilter_sorted_witness :
    (applySortAndFilter lowerAscii
      [{ keyword := "candle".toList, opportunity := 40, cls := Cls.low, estVol := 300,
         length := 1 },
       { keyword := "gift for soy candle".toList, opportunity := 90, cls := Cls.high,
         estVol := 30, length := 4 },
       { keyword := "soy candle gift".toList, opportunity := 60, cls := Cls.medium,
         estVol := 100, length := 3 }] [] "score-desc".toList).map Keyword.opportunity
      = [90, 60, 40] := by
  rw [(applySortAndFilter_sorted lowerAscii [] []).2.2.2.2 _ _ _ rfl rfl rfl (by decide)]
  rfl

/-- Claim C8: for every sort mode the items that `applySortAndFilter` keeps are exactly
the items of the current list whose lower-cased keyword contains the lower-cased and
trimmed filter text as a substring; when that text is empty every item is kept. -/
theorem applySortAndFilter_filter (lower : Str → Str) (cur : List Keyword)
    (f mode : Str) :
    (∀ it, it ∈ applySortAndFilter lower cur f mode ↔
      it ∈ cur ∧ trim (lower f) <:+: lower it.keyword) ∧
    (trim (lower f) = [] → ∀ it ∈ cur, it ∈ applySortAndFilter lower cur f mode) := by
  have key : ∀ it, it ∈ applySortAndFilter lower cur f mode ↔
      it ∈ cur ∧ trim (lower f) <:+: lower it.keyword := by
    intro it
    rw [(applySortAndFilter_perm lower cur f mode).mem_iff, mem_filterItems]
  refine ⟨key, ?_⟩
  intro hf it hit
  rw [key, hf]
  exact ⟨hit, List.nil_infix⟩

/-- The first part of C8 for two records and the filter text ` GIFT `. -/
theorem applySortAndFilter_filter_witness :
    ∀ it, it ∈ applySortAndFilter lowerAscii
        [{ keyword := "Gift box".toList, opportunity := 40, cls := Cls.low, estVol := 300,
           length := 2 },
         { keyword := "soy candle".toList, opportunity := 90, cls := Cls.high,
           estVol := 30, length := 2 }] " GIFT ".toList "score-asc".toList ↔
      it ∈ [{ keyword := "Gift box".toList, opportunity := 40, cls := Cls.low, estVol := 300,
              length := 2 },
            { keyword := "soy candle".toList, opportunity := 90, cls := Cls.high,
              estVol := 30, length := 2 }] ∧
        trim (lowerAscii " GIFT ".toList) <:+: lowerAscii it.keyword :=
  (applySortAndFilter_filter lowerAscii _ " GIFT ".toList "score-asc".toList).1

/-! ### Duplicates after the extension step -/

theorem generateKeywords_keywords {lower : Str → Str} {o : Oracle} {seedRaw category : Str}
    {count : Int} (hseed : slugify lower seedRaw ≠ []) :
    (generateKeywords lower o seedRaw category count).map Keyword.keyword
      = finalOf lower o (slugify lower seedRaw) category count := by
  unfold generateKeywords
  simp only [hseed, if_false]
  exact scoreAll_keyword _ _ _

theorem interp_sample_mem (arr : List Str) (r : ℚ) :
    interp (sample arr r) ∈ "undefined".toList :: arr := by
  unfold sample interp
  simp only
  split_ifs
  · cases h : arr.get? (⌊r * (arr.length : ℚ)⌋).toNat with
    | none => simp
    | some x =>
      have := List.get?_mem h
      simp [this]
  · simp

theorem mem_collapseWs {s : Str} {c : Char} (h : c ∈ collapseWs s) : c ∈ s ∨ c = ' ' := by
  induction s with
  | nil => simp [collapseWs] at h
  | cons a s ih =>
    by_cases ha : isWs a = true
    · cases s with
      | nil =>
        simp [collapseWs, ha] at h
        exact Or.inr h
      | cons d ds =>
        by_cases hd : isWs d = true
        · have e : collapseWs (a :: d :: ds) = collapseWs (d :: ds) := by
            simp [collapseWs, ha, hd]
          rw [e] at h
          rcases ih h with h | h
          · exact Or.inl (List.mem_cons_of_mem _ h)
          · exact Or.inr h
        · have e : collapseWs (a :: d :: ds) = ' ' :: collapseWs (d :: ds) := by
            simp [collapseWs, ha, hd]
          rw [e] at h
          rcases List.mem_cons.mp h with h | h
          · exact Or.inr h
          · rcases ih h with h | h
            · exact Or.inl (List.mem_cons_of_mem _ h)
            · exact Or.inr h
    · have e : collapseWs (a :: s) = a :: collapseWs s :=
        collapseWs_cons_not_ws s (by simpa using ha)
      rw [e] at h
      rcases List.mem_cons.mp h with h | h
      · exact Or.inl (by simp [h])
      · rcases ih h with h | h
        · exact Or.inl (List.mem_cons_of_mem _ h)
        · exact Or.inr h

theorem hyphen_not_mem_clean {s : Str} (h : '-' ∉ s) : '-' ∉ clean s := by
  intro hc
  have h1 : '-' ∈ collapseWs s := (trim_isInfix _).subset hc
  rcases mem_collapseWs h1 with h2 | h2
  · exact h h2
  · exact absurd h2 (by decide)

theorem mem_of_mem_splitP (p : Char → Bool) (s : Str) :
    ∀ w ∈ splitP p s, ∀ c ∈ w, c ∈ s := by
  induction s with
  | nil => simp [splitP]
  | cons a s ih =>
    intro w hw c hc
    unfold splitP at hw
    split_ifs at hw
    · rcases List.mem_cons.mp hw with rfl | hw
      · simp at hc
      · exact List.mem_cons_of_mem _ (ih w hw c hc)
    · cases hsp : splitP p s with
      | nil => exact absurd hsp (splitP_ne_nil p s)
      | cons v vs =>
        rw [hsp] at hw ih
        simp only [List.mem_cons] at hw
        rcases hw with rfl | hw
        · rcases List.mem_cons.mp hc with rfl | hc
          · simp
          · exact List.mem_cons_of_mem _ (ih v (by simp) c hc)
        · exact List.mem_cons_of_mem _ (ih w (by simp [hw]) c hc)

theorem hyphen_not_mem_join (ws : List Str) (h : ∀ w ∈ ws, '-' ∉ w) : '-' ∉ join sp ws := by
  induction ws with
  | nil => simp [join]
  | cons w ws ih =>
    cases ws with
    | nil => simpa [join] using h w (by simp)
    | cons v vs =>
      have h1 := h w (by simp)
      have h2 := ih (fun x hx => h x (by simp [hx]))
      simp only [join, List.mem_append, not_or]
      exact ⟨⟨h1, by decide⟩, h2⟩

theorem words_no_hyphen :
    ∀ m ∈ "undefined".toList :: (modifiers ++ materials ++ intents ++ occasion ++ extraWords),
      '-' ∉ m := by
  decide

theorem modifier_no_hyphen {m : Str} (h : m ∈ "undefined".toList :: modifiers) : '-' ∉ m := by
  apply words_no_hyphen
  simp only [List.mem_cons, List.mem_append] at h ⊢
  tauto

theorem material_no_hyphen {m : Str} (h : m ∈ "undefined".toList :: materials) : '-' ∉ m := by
  apply words_no_hyphen
  simp only [List.mem_cons, List.mem_append] at h ⊢
  tauto

theorem hyphen_not_mem_fixedForms {seed : Str} (hs : '-' ∉ seed) :
    ∀ x ∈ fixedForms seed, '-' ∉ x := by
  have hsp : '-' ∉ sp := by decide
  have hfor : '-' ∉ "for".toList := by decide
  have hw : ∀ m, m ∈ modifiers ∨ m ∈ materials ∨ m ∈ intents ∨ m ∈ occasion ∨ m ∈ extraWords →
      '-' ∉ m := by
    intro m hm
    apply words_no_hyphen
    simp only [List.mem_cons, List.mem_append]
    tauto
  intro x hx
  unfold fixedForms at hx
  simp only [List.mem_append, List.mem_flatMap, List.mem_cons, List.mem_singleton,
    List.not_mem_nil, or_false] at hx
  rcases hx with ((((rfl | ⟨m, hm, rfl | rfl⟩) | ⟨m, hm, rfl | rfl⟩) | ⟨m, hm, rfl | rfl⟩) |
    ⟨m, hm, rfl | rfl⟩) | ⟨m, hm, rfl | rfl⟩
  · exact hs
  all_goals
    first
    | have hm2 := hw m (Or.inl (List.mem_of_mem_take hm))
    | have hm2 := hw m (Or.inr (Or.inl (List.mem_of_mem_take hm)))
    | have hm2 := hw m (Or.inr (Or.inr (Or.inl hm)))
    | have hm2 := hw m (Or.inr (Or.inr (Or.inr (Or.inl hm))))
    | have hm2 := hw m (Or.inr (Or.inr (Or.inr (Or.inr hm))))
    simp only [List.mem_append, not_or]
    tauto

theorem hyphen_not_mem_wordPermutations {ws : List Str} (h : ∀ w ∈ ws, '-' ∉ w) :
    ∀ x ∈ wordPermutations ws, '-' ∉ x := by
  have hsp : '-' ∉ sp := by decide
  intro x hx
  unfold wordPermutations at hx
  split_ifs at hx
  · simp only [List.mem_append, List.mem_flatMap, List.mem_cons, List.mem_singleton,
      List.not_mem_nil, or_false] at hx
    rcases hx with ⟨a, ha, b, hb, rfl | rfl⟩ | rfl | rfl
    · have hb2 := modifier_no_hyphen (List.mem_cons_of_mem _ (List.mem_of_mem_take hb))
      have ha2 := h a ha
      simp only [List.mem_append, not_or]
      tauto
    · have hb2 := modifier_no_hyphen (List.mem_cons_of_mem _ (List.mem_of_mem_take hb))
      have ha2 := h a ha
      simp only [List.mem_append, not_or]
      tauto
    · exact hyphen_not_mem_join ws h
    · exact hyphen_not_mem_join _ (fun w hw => h w (List.mem_reverse.mp hw))
  · simp at hx

theorem hyphen_not_mem_randomPhrases (o : Oracle) {seed : Str} (hs : '-' ∉ seed) :
    ∀ x ∈ randomPhrases o seed, '-' ∉ x := by
  have hsp : '-' ∉ sp := by decide
  intro x hx
  unfold randomPhrases at hx
  simp only [List.mem_flatMap, List.mem_cons, List.mem_singleton, List.not_mem_nil,
    or_false] at hx
  obtain ⟨i, -, rfl | rfl⟩ := hx
  · have h1 := modifier_no_hyphen (interp_sample_mem modifiers (o.rnd (3 * i)))
    have h2 := modifier_no_hyphen (interp_sample_mem modifiers (o.rnd (3 * i + 1)))
    simp only [List.mem_append, not_or]
    tauto
  · have h1 := modifier_no_hyphen (interp_sample_mem modifiers (o.rnd (3 * i)))
    have h2 := material_no_hyphen (interp_sample_mem materials (o.rnd (3 * i + 2)))
    simp only [List.mem_append, not_or]
    tauto

theorem hyphen_not_mem_pool (lower : Str → Str) (o : Oracle) {seed category : Str}
    (hs : '-' ∉ seed) (hc : '-' ∉ slugify lower category) :
    ∀ x ∈ pool lower o seed category, '-' ∉ x := by
  have hsp : '-' ∉ sp := by decide
  intro x hx
  unfold pool at hx
  simp only [List.mem_append] at hx
  rcases hx with (((hx | hx) | hx) | hx) | hx
  · exact hyphen_not_mem_fixedForms hs x hx
  · refine hyphen_not_mem_wordPermutations ?_ x hx
    intro w hw c
    exact hs (mem_of_mem_splitP _ seed w (List.mem_of_mem_filter hw) _ c)
  · unfold categoryForms at hx
    split_ifs at hx
    · simp only [List.mem_cons, List.mem_singleton, List.not_mem_nil, or_false] at hx
      rcases hx with rfl | rfl <;>
      · simp only [List.mem_append, not_or]
        tauto
    · simp at hx
  · unfold templates at hx
    simp only [List.mem_cons, List.mem_singleton, List.not_mem_nil, or_false] at hx
    have t1 : '-' ∉ "set of ".toList := by decide
    have t2 : '-' ∉ " set".toList := by decide
    have t3 : '-' ∉ "mini ".toList := by decide
    have t4 : '-' ∉ "personalized ".toList := by decide
    have t5 : '-' ∉ " gift".toList := by decide
    have t6 : '-' ∉ "custom ".toList := by decide
    have t7 : '-' ∉ " for sale".toList := by decide
    have t8 : '-' ∉ " near me".toList := by decide
    have t9 : '-' ∉ " online".toList := by decide
    rcases hx with rfl | rfl | rfl | rfl | rfl | rfl | rfl | rfl | rfl <;>
    · simp only [List.mem_append, not_or]
      tauto
  · exact hyphen_not_mem_randomPhrases o hs x hx

theorem hyphen_not_mem_cleaned (lower : Str → Str) (o : Oracle) {seed category : Str}
    (hs : '-' ∉ seed) (hc : '-' ∉ slugify lower category) :
    ∀ x ∈ cleaned lower o seed category, '-' ∉ x := by
  intro x hx
  obtain ⟨-, p, hp, rfl⟩ := mem_cleaned.mp hx
  exact hyphen_not_mem_clean (hyphen_not_mem_pool lower o hs hc p hp)

/-- The text of a suffixed candidate up to its first hyphen is the base phrase and a
space, when the base phrase has no hyphen. -/
theorem takeWhile_extension {s : Str} (x : Str) (hs : '-' ∉ s) :
    (s ++ " - ".toList ++ x).takeWhile (fun c => c != '-') = s ++ [' '] := by
  induction s with
  | nil => simp [List.takeWhile]
  | cons a s ih =>
    have ha : a ≠ '-' := fun e => hs (by simp [e])
    have hs2 : '-' ∉ s := fun e => hs (List.mem_cons_of_mem _ e)
    have := ih hs2
    simp only [List.cons_append, List.takeWhile_cons, bne_iff_ne, ne_eq, ha, not_false_eq_true,
      if_true, List.cons.injEq, true_and]
    simpa using this

theorem hyphen_mem_extension (s x : Str) : '-' ∈ s ++ " - ".toList ++ x := by
  simp

theorem suffixes_no_hyphen : ∀ x ∈ "undefined".toList :: suffixes, '-' ∉ x := by
  decide

/-- Two suffixed candidates are equal only when their base phrases are: the suffix
words have no hyphen, so the last hyphen of the text separates base and suffix. -/
theorem extension_injective {s1 s2 x1 x2 : Str} (h1 : x1 ∈ "undefined".toList :: suffixes)
    (h2 : x2 ∈ "undefined".toList :: suffixes)
    (h : s1 ++ " - ".toList ++ x1 = s2 ++ " - ".toList ++ x2) : s1 = s2 := by
  have hr : ∀ (s x : Str), (s ++ " - ".toList ++ x).reverse
      = x.reverse ++ " - ".toList ++ s.reverse := by
    intro s x
    simp
  have n1 : '-' ∉ x1.reverse := fun e => suffixes_no_hyphen x1 h1 (List.mem_reverse.mp e)
  have n2 : '-' ∉ x2.reverse := fun e => suffixes_no_hyphen x2 h2 (List.mem_reverse.mp e)
  have e := congrArg (fun t => t.reverse.takeWhile (fun c => c != '-')) h
  simp only [hr, takeWhile_extension _ n1, takeWhile_extension _ n2] at e
  have hx : x1 = x2 := List.reverse_injective (List.append_cancel_right e)
  subst hx
  exact List.append_cancel_right (List.append_cancel_right h)

theorem nodup_expandLoop (o : Oracle) (count : Int) (rest : List Str) (idx : Nat)
    (e : List Str) (hrest : rest.Nodup) (he : e.Nodup)
    (hinv : ∀ s ∈ rest, ∀ x ∈ "undefined".toList :: suffixes, s ++ " - ".toList ++ x ∉ e) :
    (expandLoop o count rest idx e).Nodup := by
  induction rest generalizing idx e with
  | nil => simpa [expandLoop] using he
  | cons s rest ih =>
    unfold expandLoop
    split_ifs
    · obtain ⟨hsrest, hrest2⟩ := List.nodup_cons.mp hrest
      have hx0 := interp_sample_mem suffixes (o.rnd (600 + idx))
      refine ih _ _ hrest2 ?_ ?_
      · refine List.Nodup.append he (by simp) ?_
        intro t hte ht0
        rw [List.mem_singleton] at ht0
        subst ht0
        exact hinv s (by simp) _ hx0 hte
      · intro s2 hs2 x hx hmem
        rcases List.mem_append.mp hmem with hmem | hmem
        · exact hinv s2 (by simp [hs2]) x hx hmem
        · rw [List.mem_singleton] at hmem
          have : s2 = s := extension_injective hx hx0 hmem
          exact hsrest (this ▸ hs2)
    · exact he

theorem expandLoop_of_le (o : Oracle) (count : Int) (rest : List Str) (idx : Nat)
    (e : List Str) (h : count ≤ (e.length : Int)) : expandLoop o count rest idx e = e := by
  cases rest with
  | nil => rfl
  | cons s rest =>
    unfold expandLoop
    rw [if_neg (by omega)]

theorem nodup_finalOf {lower : Str → Str} {o : Oracle} {seed category : Str} {count : Int}
    (hperm : ∀ l, (o.shuffle l).Perm l)
    (h : (expandedOf lower o seed category count).Nodup) :
    (finalOf lower o seed category count).Nodup :=
  List.Nodup.sublist (List.take_sublist _ _) ((hperm _).nodup_iff.mpr h)

/-- Where the extension step cannot collide: when the shuffle is a permutation and no
entry of the cleaned pool is another entry of it followed by ` - ` and a suffix word,
the list returned by `generateKeywords` has no two entries with equal keywords. -/
theorem generateKeywords_nodup_of_no_collision (lower : Str → Str) (o : Oracle)
    (seedRaw category : Str) (count : Int) (hperm : ∀ l, (o.shuffle l).Perm l)
    (h : ∀ s ∈ cleaned lower o (slugify lower seedRaw) category,
      ∀ x ∈ "undefined".toList :: suffixes,
        s ++ " - ".toList ++ x ∉ cleaned lower o (slugify lower seedRaw) category) :
    ((generateKeywords lower o seedRaw category count).map Keyword.keyword).Nodup := by
  by_cases hseed : slugify lower seedRaw = []
  · simp [generateKeywords, hseed]
  · rw [generateKeywords_keywords hseed]
    apply nodup_finalOf hperm
    unfold expandedOf
    exact nodup_expandLoop o count _ 0 _ (nodup_cleaned _ _ _ _) (nodup_cleaned _ _ _ _) h

/-- Two cases without a collision: neither the normalized seed nor the normalized
category contains a hyphen, or `count` does not exceed the size of the cleaned pool,
so that no suffixed candidate is added. -/
theorem generateKeywords_nodup (lower : Str → Str) (o : Oracle) (seedRaw category : Str)
    (count : Int) (hperm : ∀ l, (o.shuffle l).Perm l)
    (h : ('-' ∉ slugify lower seedRaw ∧ '-' ∉ slugify lower category) ∨
      count ≤ ((cleaned lower o (slugify lower seedRaw) category).length : Int)) :
    ((generateKeywords lower o seedRaw category count).map Keyword.keyword).Nodup := by
  rcases h with ⟨hs, hc⟩ | hcount
  · refine generateKeywords_nodup_of_no_collision lower o seedRaw category count hperm ?_
    intro s _ x _ hmem
    exact hyphen_not_mem_cleaned lower o hs hc _ hmem (hyphen_mem_extension s x)
  · by_cases hseed : slugify lower seedRaw = []
    · simp [generateKeywords, hseed]
    · rw [generateKeywords_keywords hseed]
      apply nodup_finalOf hperm
      unfold expandedOf
      rw [expandLoop_of_le _ _ _ _ _ hcount]
      exact nodup_cleaned _ _ _ _

/-- The hyphen-free case at the seed `Soy Candle`, the category `Home` and count 500. -/
theorem generateKeywords_nodup_instance :
    (∀ l, (zeroOracle.shuffle l).Perm l) ∧
    '-' ∉ slugify lowerAscii "Soy Candle".toList ∧ '-' ∉ slugify lowerAscii "Home".toList ∧
    ((generateKeywords lowerAscii zeroOracle "Soy Candle".toList "Home".toList 500).map
      Keyword.keyword).Nodup :=
  ⟨fun l => List.Perm.refl l, by decide, by decide,
    generateKeywords_nodup lowerAscii zeroOracle "Soy Candle".toList "Home".toList 500
      (fun l => List.Perm.refl l) (Or.inl ⟨by decide, by decide⟩)⟩

/-- Claim C9 (no two returned entries have equal keywords, also after the extension):
the code breaks it.  For the seed `candle`, the category `- best`, count 150 and the
run in which every draw is `0` and the shuffle keeps the order, the keyword
`candle - best` is returned twice, once from the category step of the pool and once
from the extension of `candle` with the suffix `best`: the `dedupe` announced by the
comment of line 112 is done on line 113 only, before the loop of lines 118-122 adds
its entries. -/
theorem generateKeywords_duplicate :
    (∀ l, (zeroOracle.shuffle l).Perm l) ∧
    ((generateKeywords lowerAscii zeroOracle "candle".toList "- best".toList 150).map
      Keyword.keyword).count "candle - best".toList = 2 ∧
    ¬ ((generateKeywords lowerAscii zeroOracle "candle".toList "- best".toList 150).map
      Keyword.keyword).Nodup := by
  refine ⟨fun l => List.Perm.refl l, ?_, ?_⟩
  · decide!
  · decide!

end EtsyKeywordFinder
